import Mathlib

/-!
Verification of the two rate limiters in `src/Rate-Limiter`
(`leaking_bucket.cpp` and `token_bucket.cpp`) against their
natural-language specification.

Modelling conventions:
* C++ `int` / `int64_t` / `long` become `Int` (the claims do not involve
  overflow behaviour).
* C++ `double` becomes `ℚ`: every value these programs store in a double
  is a small rational (sums of units and of `leakRate/1000` multiples),
  so exact rational arithmetic models the intended real arithmetic.
* `std::max` and `std::min` on doubles are modelled literally as their
  conditional definitions (`rmax`, `rmin` below).
* C++ integer division (`refillRate/60`, truncation toward zero) is
  `Int.tdiv`.
* `TokenBucket::isAllowable` reads `now` from `std::chrono::steady_clock`
  internally; we model the clock read as an explicit parameter, as the
  specification's design also demands.  A steady clock delivers
  non-negative, monotonically non-decreasing readings, which is what the
  hypotheses `0 ≤ now` / `List.Chain (· ≤ ·) 0 ts` encode in theorems
  about `TokenBucket`.
-/

/-- Model of `std::max` on doubles: `(a < b) ? b : a`. -/
def rmax (a b : ℚ) : ℚ := if a < b then b else a

/-- Model of `std::min` on doubles: `(b < a) ? b : a`. -/
def rmin (a b : ℚ) : ℚ := if b < a then b else a

theorem rmax_eq_max (a b : ℚ) : rmax a b = max a b := by
  rw [rmax, max_def]
  rcases lt_trichotomy a b with h | h | h
  · rw [if_pos h, if_pos h.le]
  · rw [if_neg (by simp [h]), if_pos h.le, h]
  · rw [if_neg (by simp [h.asymm]), if_neg (by simp [h])]

theorem rmin_eq_min (a b : ℚ) : rmin a b = min a b := by
  rw [rmin, min_def]
  rcases lt_trichotomy a b with h | h | h
  · rw [if_neg (by simp [h.asymm]), if_pos h.le]
  · rw [if_neg (by simp [h]), if_pos h.le, h]
  · rw [if_pos h, if_neg (by simp [h])]

/-- State of `class LeakyBucket` (`leaking_bucket.cpp`, lines 30–36):
`capacity` and `leakRate` are C++ `int`s, `bucket` is a `double`,
`last_ts` an `int64_t` millisecond timestamp. -/
structure LeakyBucket where
  capacity : Int
  leakRate : Int
  bucket : ℚ
  last_ts : Int
deriving DecidableEq

/-- Constructor `LeakyBucket(int capacity, int leakRate)`
(`leaking_bucket.cpp`, line 39): stores both parameters unchecked and
initialises `last_ts = -1`, `bucket = 0`. -/
def LeakyBucket.init (capacity leakRate : Int) : LeakyBucket :=
  ⟨capacity, leakRate, 0, -1⟩

/-- Method `bool allow(int64_t ts_ms)` (`leaking_bucket.cpp`, lines
43–76), returning the updated object state together with the boolean
result. -/
def LeakyBucket.allow (s : LeakyBucket) (ts_ms : Int) : LeakyBucket × Bool :=
  if s.last_ts = -1 then
    -- First call: initialize time anchor, no draining.
    let s := { s with last_ts := ts_ms }
    if s.bucket + 1 ≤ (s.capacity : ℚ) then ({ s with bucket := s.bucket + 1 }, true)
    else (s, false)
  else
    -- Compute time delta (clamp if out-of-order).
    let delta_ms : Int := ts_ms - s.last_ts
    let delta_ms : Int := if delta_ms < 0 then 0 else delta_ms
    -- Drain based on leak rate (requests per second) and ms timestamps.
    let drain : ℚ := (delta_ms : ℚ) * ((s.leakRate : ℚ) / 1000)
    let s := { s with bucket := rmax 0 (s.bucket - drain), last_ts := ts_ms }
    -- Try to add this request.
    if s.bucket + 1 ≤ (s.capacity : ℚ) then ({ s with bucket := s.bucket + 1 }, true)
    else (s, false)

/-- Folds `LeakyBucket.allow` over a list of timestamps, collecting each
call's boolean result: a finite sequence of admission checks. -/
def LeakyBucket.run (s : LeakyBucket) (ts : List Int) : LeakyBucket × List Bool :=
  match ts with
  | [] => (s, [])
  | t :: rest =>
    let p := s.allow t
    let q := p.1.run rest
    (q.1, p.2 :: q.2)

/-- State of `class TokenBucket` (`token_bucket.cpp`, lines 101–106):
`capacity` and `refillRate` are C++ `int`s, `tokens` a `double`,
`lastRefillTime` an integer number of seconds. -/
structure TokenBucket where
  capacity : Int
  tokens : ℚ
  refillRate : Int
  lastRefillTime : Int
deriving DecidableEq

/-- Constructor `TokenBucket(int capacity, int refillRate)`
(`token_bucket.cpp`, line 108): stores both parameters unchecked, starts
with a full bucket (`tokens = capacity`) and `lastRefillTime = 0`. -/
def TokenBucket.init (capacity refillRate : Int) : TokenBucket :=
  ⟨capacity, capacity, refillRate, 0⟩

/-- Method `bool isAllowable()` (`token_bucket.cpp`, lines 112–127).
The C++ method reads `now` (epoch seconds of a steady clock) internally;
it is an explicit parameter here.  `refillRate/60` is C++ integer
division, i.e. truncation toward zero (`Int.tdiv`); there is no clamping
of a negative `timePassed`. -/
def TokenBucket.isAllowable (s : TokenBucket) (now : Int) : TokenBucket × Bool :=
  let timePassed : Int := now - s.lastRefillTime
  let earned : ℚ := ((timePassed * (s.refillRate.tdiv 60) : Int) : ℚ)
  let tokens : ℚ := rmin (s.capacity : ℚ) (s.tokens + earned)
  if 1 ≤ tokens then
    ({ s with tokens := tokens - 1, lastRefillTime := now }, true)
  else
    ({ s with tokens := tokens }, false)

/-- Folds `TokenBucket.isAllowable` over a list of clock readings,
collecting each call's boolean result. -/
def TokenBucket.run (s : TokenBucket) (ts : List Int) : TokenBucket × List Bool :=
  match ts with
  | [] => (s, [])
  | t :: rest =>
    let p := s.isAllowable t
    let q := p.1.run rest
    (q.1, p.2 :: q.2)

/-- C6: for a fresh `LeakyBucket` with capacity 2 and leak rate 1 per
second, the call sequence `allow 0, allow 0, allow 0, allow 1000,
allow 1000` returns exactly `true, true, false, true, false`. -/
theorem C6_concrete_scenario :
    ((LeakyBucket.init 2 1).run [0, 0, 0, 1000, 1000]).2
      = [true, true, false, true, false] := by
  norm_num [LeakyBucket.run, LeakyBucket.allow, LeakyBucket.init, rmax]

/-- C2 counterexample: construction with `capacity = 0` does not fail —
it yields a limiter instance, and that instance denies every admission
check (shown here on three checks for each limiter), i.e. exactly the
"always-deny" outcome the claim says construction-time failure prevents. -/
theorem C2_counterexample :
    ((LeakyBucket.init 0 1).run [0, 1000, 2000]).2 = [false, false, false] ∧
    ((TokenBucket.init 0 1).run [0, 1000, 2000]).2 = [false, false, false] := by
  constructor
  · norm_num [LeakyBucket.run, LeakyBucket.allow, LeakyBucket.init, rmax]
  · norm_num [TokenBucket.run, TokenBucket.isAllowable, TokenBucket.init, rmin,
      Int.tdiv]

/-- C4 counterexample: `TokenBucket` does not clamp a negative elapsed
time.  With capacity 5 and rate 60/min, an admitted check at `now = 10`
leaves `tokens = 4`; a following check at the backward timestamp
`now = 5` computes `earned = -5` and changes the level from 4 to -1,
so a backward-moving timestamp does change the level. -/
theorem C4_counterexample :
    ((TokenBucket.init 5 60).run [10]).1.tokens = 4 ∧
    ((TokenBucket.init 5 60).run [10, 5]).1.tokens = -1 := by
  constructor
  · norm_num [TokenBucket.run, TokenBucket.isAllowable, TokenBucket.init, rmin,
      Int.tdiv]
  · norm_num [TokenBucket.run, TokenBucket.isAllowable, TokenBucket.init, rmin,
      Int.tdiv]

/-- C9 counterexample: with capacity 1 and rate 30 tokens/minute, the
single token is consumed at `now = 0`; the claim promises the check at
`now = 2` succeeds (2 seconds ≥ 60/30 = 2 seconds elapsed), but the code
computes `earned = 2 * (30 / 60) = 2 * 0 = 0` by integer truncation and
denies it. -/
theorem C9_counterexample :
    ((TokenBucket.init 1 30).run [0, 2]).2 = [true, false] := by
  norm_num [TokenBucket.run, TokenBucket.isAllowable, TokenBucket.init, rmin,
    Int.tdiv]

/-- C10 counterexample: fresh `LeakyBucket` with capacity 2, leak rate 1.
After `allow (-1)` and `allow 0` the bucket is full (2/2), so the claim
predicts every later call is denied forever; but the second call stored
`last_ts = 0`, leaving the sentinel state, and the third call at 2000
drains 2 units and is admitted. -/
theorem C10_counterexample :
    ((LeakyBucket.init 2 1).run [-1, 0, 2000]).2 = [true, true, true] := by
  norm_num [LeakyBucket.run, LeakyBucket.allow, LeakyBucket.init, rmax]

/-- C1: the code computes `earned` with truncating integer division
`refillRate/60`, not real-number division.  With rate 30 tokens/minute
(0 < rate < 60) and the single token of a capacity-1 bucket consumed at
time 0, `earned = timePassed * (30 / 60) = timePassed * 0 = 0` for every
later clock reading, so no elapsed time however long ever earns a
positive number of tokens and every subsequent check is denied. -/
theorem C1_integer_division_starves :
    ∀ now : Int, ((((TokenBucket.init 1 30).run [0]).1).isAllowable now).2 = false := by
  intro now
  have h : ((TokenBucket.init 1 30).run [0]).1 = ⟨1, 0, 30, 0⟩ := by
    norm_num [TokenBucket.run, TokenBucket.isAllowable, TokenBucket.init, rmin,
      Int.tdiv]
  rw [h]
  simp only [TokenBucket.isAllowable]
  norm_num [rmin, Int.tdiv]
theorem rmax_zero_of_nonneg {b : ℚ} (hb : 0 ≤ b) : rmax 0 b = b := by
  rw [rmax_eq_max, max_eq_right hb]

theorem LeakyBucket.allow_fields (s : LeakyBucket) (t : Int) :
    (s.allow t).1.capacity = s.capacity ∧ (s.allow t).1.leakRate = s.leakRate ∧
    (s.allow t).1.last_ts = t := by
  unfold LeakyBucket.allow
  dsimp only
  split
  · split <;> simp
  · split <;> split <;> simp

theorem TokenBucket.isAllowable_fields (s : TokenBucket) (now : Int) :
    (s.isAllowable now).1.capacity = s.capacity ∧
    (s.isAllowable now).1.refillRate = s.refillRate := by
  unfold TokenBucket.isAllowable
  dsimp only
  split <;> simp

/-- Calling `allow` at the recorded timestamp (zero elapsed time) drains
nothing: the call reduces to the bare admission attempt. -/
theorem LeakyBucket.allow_same_ts (s : LeakyBucket) (hb : 0 ≤ s.bucket) :
    s.allow s.last_ts =
      if s.bucket + 1 ≤ (s.capacity : ℚ) then ({ s with bucket := s.bucket + 1 }, true)
      else (s, false) := by
  unfold LeakyBucket.allow
  by_cases h : s.last_ts = -1
  · rw [if_pos h]
  · rw [if_neg h]
    dsimp only
    rw [sub_self, ite_self, Int.cast_zero, zero_mul, sub_zero, rmax_zero_of_nonneg hb]

/-- Calling `isAllowable` at the recorded refill time (zero elapsed
time) earns nothing: the call reduces to the bare token-consumption
attempt, provided the level does not exceed capacity. -/
theorem TokenBucket.isAllowable_same_ts (s : TokenBucket) (hc : s.tokens ≤ (s.capacity : ℚ)) :
    s.isAllowable s.lastRefillTime =
      if 1 ≤ s.tokens then ({ s with tokens := s.tokens - 1 }, true)
      else (s, false) := by
  unfold TokenBucket.isAllowable
  dsimp only
  rw [sub_self, zero_mul, Int.cast_zero, add_zero, rmin_eq_min, min_eq_right hc]

/-- Running a leaky bucket whose recorded timestamp already equals `t`
over `m` further checks at `t`, with room for all of them: every check
is admitted and the occupancy rises by exactly `m`. -/
theorem LeakyBucket.leaky_run_const_true (t : Int) (m : ℕ) :
    ∀ s : LeakyBucket, s.last_ts = t → 0 ≤ s.bucket →
      s.bucket + (m : ℚ) ≤ (s.capacity : ℚ) →
      s.run (List.replicate m t)
        = ({ s with bucket := s.bucket + (m : ℚ) }, List.replicate m true) := by
  induction m with
  | zero =>
    intro s hts hb hcap
    simp [LeakyBucket.run]
  | succ m ih =>
    intro s hts hb hcap
    have hm : (0 : ℚ) ≤ (m : ℚ) := Nat.cast_nonneg m
    have hcap' : s.bucket + ((m : ℚ) + 1) ≤ (s.capacity : ℚ) := by push_cast at hcap; linarith
    have hcond : s.bucket + 1 ≤ (s.capacity : ℚ) := by linarith
    have hstep : s.allow t = ({ s with bucket := s.bucket + 1 }, true) := by
      rw [← hts, LeakyBucket.allow_same_ts s hb, if_pos hcond]
    rw [List.replicate_succ]
    simp only [LeakyBucket.run]
    rw [hstep]
    dsimp only
    rw [ih { s with bucket := s.bucket + 1 } hts (by dsimp only; linarith)
      (by dsimp only; linarith)]
    rw [List.replicate_succ]
    simp only [Prod.mk.injEq, LeakyBucket.mk.injEq, true_and, and_true]
    push_cast
    ring

/-- Running a leaky bucket whose recorded timestamp already equals `t`
over `m` further checks at `t` while the bucket has no room for one more
unit: every check is denied and the state does not change at all. -/
theorem LeakyBucket.leaky_run_const_false (t : Int) (m : ℕ) :
    ∀ s : LeakyBucket, s.last_ts = t → 0 ≤ s.bucket →
      (s.capacity : ℚ) < s.bucket + 1 →
      s.run (List.replicate m t) = (s, List.replicate m false) := by
  induction m with
  | zero =>
    intro s hts hb hcap
    simp [LeakyBucket.run]
  | succ m ih =>
    intro s hts hb hcap
    have hstep : s.allow t = (s, false) := by
      rw [← hts, LeakyBucket.allow_same_ts s hb, if_neg (not_le.mpr hcap)]
    rw [List.replicate_succ]
    simp only [LeakyBucket.run]
    rw [hstep]
    dsimp only
    rw [ih s hts hb hcap, List.replicate_succ]

/-- Running a token bucket whose recorded refill time already equals `t`
over `m` further checks at `t`, with at least `m` tokens available:
every check is admitted and the level drops by exactly `m`. -/
theorem TokenBucket.token_run_const_true (t : Int) (m : ℕ) :
    ∀ s : TokenBucket, s.lastRefillTime = t → (m : ℚ) ≤ s.tokens →
      s.tokens ≤ (s.capacity : ℚ) →
      s.run (List.replicate m t)
        = ({ s with tokens := s.tokens - (m : ℚ) }, List.replicate m true) := by
  induction m with
  | zero =>
    intro s hts hm hc
    simp [TokenBucket.run]
  | succ m ih =>
    intro s hts hm hc
    have hm0 : (0 : ℚ) ≤ (m : ℚ) := Nat.cast_nonneg m
    have hm' : (m : ℚ) + 1 ≤ s.tokens := by push_cast at hm; linarith
    have hcond : 1 ≤ s.tokens := by linarith
    have hstep : s.isAllowable t = ({ s with tokens := s.tokens - 1 }, true) := by
      rw [← hts, TokenBucket.isAllowable_same_ts s hc, if_pos hcond]
    rw [List.replicate_succ]
    simp only [TokenBucket.run]
    rw [hstep]
    dsimp only
    rw [ih { s with tokens := s.tokens - 1 } (by simp [hts]) (by dsimp only; linarith)
      (by dsimp only; linarith)]
    rw [List.replicate_succ]
    simp only [Prod.mk.injEq, TokenBucket.mk.injEq, true_and, and_true]
    push_cast
    ring

/-- Running a token bucket whose recorded refill time already equals `t`
over `m` further checks at `t` while fewer than one token is available:
every check is denied and the state does not change at all. -/
theorem TokenBucket.token_run_const_false (t : Int) (m : ℕ) :
    ∀ s : TokenBucket, s.lastRefillTime = t → s.tokens < 1 →
      s.tokens ≤ (s.capacity : ℚ) →
      s.run (List.replicate m t) = (s, List.replicate m false) := by
  induction m with
  | zero =>
    intro s hts h1 hc
    simp [TokenBucket.run]
  | succ m ih =>
    intro s hts h1 hc
    have hstep : s.isAllowable t = (s, false) := by
      rw [← hts, TokenBucket.isAllowable_same_ts s hc, if_neg (not_le.mpr h1)]
    rw [List.replicate_succ]
    simp only [TokenBucket.run]
    rw [hstep]
    dsimp only
    rw [ih s hts h1 hc, List.replicate_succ]

/-- Splitting a run over an appended list of timestamps. -/
theorem LeakyBucket.leaky_run_append (l₁ l₂ : List Int) :
    ∀ s : LeakyBucket,
      s.run (l₁ ++ l₂)
        = (((s.run l₁).1.run l₂).1, (s.run l₁).2 ++ ((s.run l₁).1.run l₂).2) := by
  induction l₁ with
  | nil => intro s; simp [LeakyBucket.run]
  | cons t l ih => intro s; simp [LeakyBucket.run, ih]

/-- Splitting a run over an appended list of clock readings. -/
theorem TokenBucket.token_run_append (l₁ l₂ : List Int) :
    ∀ s : TokenBucket,
      s.run (l₁ ++ l₂)
        = (((s.run l₁).1.run l₂).1, (s.run l₁).2 ++ ((s.run l₁).1.run l₂).2) := by
  induction l₁ with
  | nil => intro s; simp [TokenBucket.run]
  | cons t l ih => intro s; simp [TokenBucket.run, ih]

/-- The first call on a freshly constructed leaky bucket with capacity
at least 1 takes the sentinel branch, records the timestamp and admits. -/
theorem LeakyBucket.init_allow (C R t : Int) (hC : 1 ≤ C) :
    (LeakyBucket.init C R).allow t = (⟨C, R, 1, t⟩, true) := by
  unfold LeakyBucket.init LeakyBucket.allow
  dsimp only
  rw [if_pos rfl, if_pos (by exact_mod_cast hC), zero_add]

/-- The first call on a freshly constructed token bucket with capacity
at least 1, non-negative rate and non-negative clock reading earns a
non-negative refill that is capped at capacity, consumes one token and
records the clock reading. -/
theorem TokenBucket.init_isAllowable (C R t : Int) (hC : 1 ≤ C) (hR : 0 ≤ R)
    (ht : 0 ≤ t) :
    (TokenBucket.init C R).isAllowable t = (⟨C, (C : ℚ) - 1, R, t⟩, true) := by
  unfold TokenBucket.init TokenBucket.isAllowable
  dsimp only
  have hearn : (0 : ℚ) ≤ (((t - 0) * R.tdiv 60 : Int) : ℚ) := by
    have : (0 : Int) ≤ (t - 0) * R.tdiv 60 :=
      mul_nonneg (by omega) (Int.tdiv_nonneg hR (by norm_num))
    exact_mod_cast this
  rw [rmin_eq_min, min_eq_left (by linarith)]
  rw [if_pos (by exact_mod_cast hC)]

/-- Filling a fresh leaky bucket: `capacity` consecutive checks at one
timestamp are all admitted and leave the bucket exactly full. -/
theorem LeakyBucket.init_fill (C R t : Int) (hC : 1 ≤ C) :
    (LeakyBucket.init C R).run (List.replicate C.toNat t)
      = (⟨C, R, (C : ℚ), t⟩, List.replicate C.toNat true) := by
  have hn : C.toNat = (C.toNat - 1) + 1 := by omega
  have hcast : ((C.toNat - 1 : ℕ) : ℚ) = (C : ℚ) - 1 := by
    have h1 : ((C.toNat : ℕ) : ℚ) = (C : ℚ) := by
      exact_mod_cast congrArg (fun n : Int => (n : ℚ)) (Int.toNat_of_nonneg (by omega))
    rw [Nat.cast_sub (by omega)]
    rw [h1]
    norm_num
  rw [hn, List.replicate_succ]
  simp only [LeakyBucket.run]
  rw [LeakyBucket.init_allow C R t hC]
  dsimp only
  rw [LeakyBucket.leaky_run_const_true t (C.toNat - 1) ⟨C, R, 1, t⟩ rfl (by norm_num)
    (by dsimp only; rw [hcast]; ring_nf; rfl)]
  rw [hcast, ← hn]
  dsimp only
  rw [Prod.mk.injEq, LeakyBucket.mk.injEq]
  refine ⟨⟨rfl, rfl, by ring, rfl⟩, by conv_rhs => rw [hn, List.replicate_succ]⟩

/-- Consuming a fresh token bucket: `capacity` consecutive checks at one
non-negative clock reading are all admitted and leave zero tokens with
the refill baseline at that reading. -/
theorem TokenBucket.consume_all (C R T : Int) (hC : 1 ≤ C) (hR : 0 ≤ R) (hT : 0 ≤ T) :
    (TokenBucket.init C R).run (List.replicate C.toNat T)
      = (⟨C, 0, R, T⟩, List.replicate C.toNat true) := by
  have hn : C.toNat = (C.toNat - 1) + 1 := by omega
  have hcast : ((C.toNat - 1 : ℕ) : ℚ) = (C : ℚ) - 1 := by
    have h1 : ((C.toNat : ℕ) : ℚ) = (C : ℚ) := by
      exact_mod_cast congrArg (fun n : Int => (n : ℚ)) (Int.toNat_of_nonneg (by omega))
    rw [Nat.cast_sub (by omega)]
    rw [h1]
    norm_num
  rw [hn, List.replicate_succ]
  simp only [TokenBucket.run]
  rw [TokenBucket.init_isAllowable C R T hC hR hT]
  dsimp only
  rw [TokenBucket.token_run_const_true T (C.toNat - 1) ⟨C, (C : ℚ) - 1, R, T⟩ rfl
    (by dsimp only; rw [hcast]) (by dsimp only; linarith [(by exact_mod_cast hC : (1:ℚ) ≤ (C:ℚ))])]
  rw [hcast, ← hn]
  dsimp only
  rw [Prod.mk.injEq, TokenBucket.mk.injEq]
  refine ⟨⟨rfl, by ring, rfl, rfl⟩, by conv_rhs => rw [hn, List.replicate_succ]⟩

/-- A single `allow` call keeps the occupancy within `[0, capacity]`
when the configured leak rate is non-negative. -/
theorem LeakyBucket.allow_bounds (s : LeakyBucket) (t : Int) (hR : 0 ≤ s.leakRate)
    (h0 : 0 ≤ s.bucket) (hc : s.bucket ≤ (s.capacity : ℚ)) :
    0 ≤ (s.allow t).1.bucket ∧ (s.allow t).1.bucket ≤ (s.capacity : ℚ) := by
  unfold LeakyBucket.allow
  dsimp only
  by_cases h : s.last_ts = -1
  · rw [if_pos h]
    by_cases h2 : s.bucket + 1 ≤ (s.capacity : ℚ)
    · rw [if_pos h2]
      exact ⟨by dsimp only; linarith, h2⟩
    · rw [if_neg h2]
      exact ⟨h0, hc⟩
  · rw [if_neg h]
    set d : Int := if t - s.last_ts < 0 then 0 else t - s.last_ts with hd
    have hdnn : (0 : Int) ≤ d := by rw [hd]; split <;> omega
    have hdrain : (0 : ℚ) ≤ (d : ℚ) * ((s.leakRate : ℚ) / 1000) := by
      apply mul_nonneg
      · exact_mod_cast hdnn
      · apply div_nonneg
        · exact_mod_cast hR
        · norm_num
    have hb' : 0 ≤ rmax 0 (s.bucket - (d : ℚ) * ((s.leakRate : ℚ) / 1000)) := by
      rw [rmax_eq_max]
      exact le_max_left 0 _
    have hb'c : rmax 0 (s.bucket - (d : ℚ) * ((s.leakRate : ℚ) / 1000)) ≤ (s.capacity : ℚ) := by
      rw [rmax_eq_max]
      exact max_le (le_trans h0 hc) (by linarith)
    by_cases h2 : rmax 0 (s.bucket - (d : ℚ) * ((s.leakRate : ℚ) / 1000)) + 1 ≤ (s.capacity : ℚ)
    · rw [if_pos h2]
      exact ⟨by dsimp only; linarith, h2⟩
    · rw [if_neg h2]
      exact ⟨hb', hb'c⟩

theorem LeakyBucket.leaky_run_fields (ts : List Int) :
    ∀ s : LeakyBucket, (s.run ts).1.capacity = s.capacity ∧
      (s.run ts).1.leakRate = s.leakRate := by
  induction ts with
  | nil => intro s; exact ⟨rfl, rfl⟩
  | cons t l ih =>
    intro s
    simp only [LeakyBucket.run]
    refine ⟨?_, ?_⟩
    · rw [(ih (s.allow t).1).1, (s.allow_fields t).1]
    · rw [(ih (s.allow t).1).2, (s.allow_fields t).2.1]

/-- Any finite sequence of `allow` calls keeps the occupancy within
`[0, capacity]` when the configured leak rate is non-negative. -/
theorem LeakyBucket.leaky_run_bounds (ts : List Int) :
    ∀ s : LeakyBucket, 0 ≤ s.leakRate → 0 ≤ s.bucket → s.bucket ≤ (s.capacity : ℚ) →
      0 ≤ (s.run ts).1.bucket ∧ (s.run ts).1.bucket ≤ (s.capacity : ℚ) := by
  induction ts with
  | nil => intro s _ h0 hc; exact ⟨h0, hc⟩
  | cons t l ih =>
    intro s hR h0 hc
    simp only [LeakyBucket.run]
    have hfields := s.allow_fields t
    have hbounds := s.allow_bounds t hR h0 hc
    have := ih (s.allow t).1 (by rw [hfields.2.1]; exact hR) hbounds.1
      (by rw [hfields.1]; exact hbounds.2)
    rw [hfields.1] at this
    exact this

/-- A single `isAllowable` call with a non-negative rate and a clock
reading at or after the recorded refill time keeps the token level
within `[0, capacity]`, and moves the recorded refill time forward but
never past the clock reading. -/
theorem TokenBucket.isAllowable_bounds (s : TokenBucket) (now : Int)
    (hR : 0 ≤ s.refillRate) (hlast : s.lastRefillTime ≤ now)
    (h0 : 0 ≤ s.tokens) (hc : s.tokens ≤ (s.capacity : ℚ)) :
    (0 ≤ (s.isAllowable now).1.tokens ∧
      (s.isAllowable now).1.tokens ≤ (s.capacity : ℚ)) ∧
    s.lastRefillTime ≤ (s.isAllowable now).1.lastRefillTime ∧
    (s.isAllowable now).1.lastRefillTime ≤ now := by
  unfold TokenBucket.isAllowable
  dsimp only
  have hearn : (0 : ℚ) ≤ (((now - s.lastRefillTime) * s.refillRate.tdiv 60 : Int) : ℚ) := by
    have : (0 : Int) ≤ (now - s.lastRefillTime) * s.refillRate.tdiv 60 :=
      mul_nonneg (by omega) (Int.tdiv_nonneg hR (by norm_num))
    exact_mod_cast this
  have hcap0 : (0 : ℚ) ≤ (s.capacity : ℚ) := le_trans h0 hc
  have htok_nn : 0 ≤ rmin (s.capacity : ℚ)
      (s.tokens + (((now - s.lastRefillTime) * s.refillRate.tdiv 60 : Int) : ℚ)) := by
    rw [rmin_eq_min]
    exact le_min hcap0 (by linarith)
  have htok_le : rmin (s.capacity : ℚ)
      (s.tokens + (((now - s.lastRefillTime) * s.refillRate.tdiv 60 : Int) : ℚ))
      ≤ (s.capacity : ℚ) := by
    rw [rmin_eq_min]
    exact min_le_left _ _
  by_cases h2 : 1 ≤ rmin (s.capacity : ℚ)
      (s.tokens + (((now - s.lastRefillTime) * s.refillRate.tdiv 60 : Int) : ℚ))
  · rw [if_pos h2]
    exact ⟨⟨by dsimp only; linarith, by dsimp only; linarith⟩, hlast, le_refl now⟩
  · rw [if_neg h2]
    exact ⟨⟨htok_nn, htok_le⟩, le_refl _, hlast⟩

theorem TokenBucket.token_run_fields (ts : List Int) :
    ∀ s : TokenBucket, (s.run ts).1.capacity = s.capacity ∧
      (s.run ts).1.refillRate = s.refillRate := by
  induction ts with
  | nil => intro s; exact ⟨rfl, rfl⟩
  | cons t l ih =>
    intro s
    simp only [TokenBucket.run]
    refine ⟨?_, ?_⟩
    · rw [(ih (s.isAllowable t).1).1, (s.isAllowable_fields t).1]
    · rw [(ih (s.isAllowable t).1).2, (s.isAllowable_fields t).2]

theorem chain_le_of_le {a a' : Int} {l : List Int} (h : a' ≤ a)
    (hc : List.Chain (· ≤ ·) a l) : List.Chain (· ≤ ·) a' l := by
  cases l with
  | nil => exact List.Chain.nil
  | cons b l =>
    cases hc with
    | cons hab hrest => exact List.Chain.cons (le_trans h hab) hrest

/-- Any finite sequence of `isAllowable` calls whose clock readings are
monotone and start no earlier than the recorded refill time keeps the
token level within `[0, capacity]`, when the rate is non-negative. -/
theorem TokenBucket.token_run_bounds (ts : List Int) :
    ∀ s : TokenBucket, 0 ≤ s.refillRate →
      List.Chain (· ≤ ·) s.lastRefillTime ts →
      0 ≤ s.tokens → s.tokens ≤ (s.capacity : ℚ) →
      0 ≤ (s.run ts).1.tokens ∧ (s.run ts).1.tokens ≤ (s.capacity : ℚ) := by
  induction ts with
  | nil => intro s _ _ h0 hc; exact ⟨h0, hc⟩
  | cons t l ih =>
    intro s hR hch h0 hc
    cases hch with
    | cons hlast hrest =>
      simp only [TokenBucket.run]
      have hfields := s.isAllowable_fields t
      have hbounds := s.isAllowable_bounds t hR hlast h0 hc
      have hch' : List.Chain (· ≤ ·) (s.isAllowable t).1.lastRefillTime l :=
        chain_le_of_le hbounds.2.2 hrest
      have := ih (s.isAllowable t).1 (by rw [hfields.2]; exact hR) hch'
        hbounds.1.1 (by rw [hfields.1]; exact hbounds.1.2)
      rw [hfields.1] at this
      exact this

/-- With non-positive capacity a leaky bucket denies every call and its
occupancy stays non-negative. -/
theorem LeakyBucket.allow_cap_nonpos (s : LeakyBucket) (t : Int) (h0 : 0 ≤ s.bucket)
    (hcap : s.capacity ≤ 0) :
    (s.allow t).2 = false ∧ 0 ≤ (s.allow t).1.bucket := by
  have hcapq : (s.capacity : ℚ) ≤ 0 := by exact_mod_cast hcap
  unfold LeakyBucket.allow
  dsimp only
  by_cases h : s.last_ts = -1
  · rw [if_pos h, if_neg (by linarith)]
    exact ⟨rfl, h0⟩
  · rw [if_neg h]
    have hb' : 0 ≤ rmax 0 (s.bucket -
        ((if t - s.last_ts < 0 then 0 else t - s.last_ts : Int) : ℚ)
          * ((s.leakRate : ℚ) / 1000)) := by
      rw [rmax_eq_max]
      exact le_max_left 0 _
    rw [if_neg (by linarith)]
    exact ⟨rfl, hb'⟩

theorem LeakyBucket.leaky_run_cap_nonpos (ts : List Int) :
    ∀ s : LeakyBucket, 0 ≤ s.bucket → s.capacity ≤ 0 →
      ∀ b ∈ (s.run ts).2, b = false := by
  induction ts with
  | nil => intro s _ _ b hb; simp [LeakyBucket.run] at hb
  | cons t l ih =>
    intro s h0 hcap b hb
    simp only [LeakyBucket.run, List.mem_cons] at hb
    rcases hb with hb | hb
    · rw [hb]
      exact (s.allow_cap_nonpos t h0 hcap).1
    · exact ih (s.allow t).1 (s.allow_cap_nonpos t h0 hcap).2
        (by rw [(s.allow_fields t).1]; exact hcap) b hb

/-- With non-positive capacity a token bucket denies every call. -/
theorem TokenBucket.isAllowable_cap_nonpos (s : TokenBucket) (now : Int)
    (hcap : s.capacity ≤ 0) :
    (s.isAllowable now).2 = false := by
  have hcapq : (s.capacity : ℚ) ≤ 0 := by exact_mod_cast hcap
  unfold TokenBucket.isAllowable
  dsimp only
  have hle : rmin (s.capacity : ℚ)
      (s.tokens + (((now - s.lastRefillTime) * s.refillRate.tdiv 60 : Int) : ℚ))
      ≤ (s.capacity : ℚ) := by
    rw [rmin_eq_min]
    exact min_le_left _ _
  rw [if_neg (by linarith)]

theorem TokenBucket.token_run_cap_nonpos (ts : List Int) :
    ∀ s : TokenBucket, s.capacity ≤ 0 → ∀ b ∈ (s.run ts).2, b = false := by
  induction ts with
  | nil => intro s _ b hb; simp [TokenBucket.run] at hb
  | cons t l ih =>
    intro s hcap b hb
    simp only [TokenBucket.run, List.mem_cons] at hb
    rcases hb with hb | hb
    · rw [hb]
      exact s.isAllowable_cap_nonpos t hcap
    · exact ih (s.isAllowable t).1
        (by rw [(s.isAllowable_fields t).1]; exact hcap) b hb

/-- C2 (amended): construction performs no validation and never fails;
it always produces a limiter instance.  In particular, constructing
either limiter with `capacity ≤ 0` yields an instance on which every
admission check of every finite sequence is denied — the always-deny
limiter the spec says fail-fast construction should rule out. -/
theorem C2_no_construction_failure (C R : Int) (hC : C ≤ 0) :
    (∀ ts : List Int, ∀ b ∈ ((LeakyBucket.init C R).run ts).2, b = false) ∧
    (∀ ts : List Int, ∀ b ∈ ((TokenBucket.init C R).run ts).2, b = false) := by
  constructor
  · intro ts b hb
    exact LeakyBucket.leaky_run_cap_nonpos ts (LeakyBucket.init C R) (le_refl 0) hC b hb
  · intro ts b hb
    exact TokenBucket.token_run_cap_nonpos ts (TokenBucket.init C R) hC b hb

/-- Witness for `C2_no_construction_failure` at capacity 0, rate 1 and a
concrete three-check sequence. -/
theorem C2_no_construction_failure_witness :
    (∀ b ∈ ((LeakyBucket.init 0 1).run [0, 1000, 2000]).2, b = false) ∧
    (∀ b ∈ ((TokenBucket.init 0 1).run [5, 6, 7]).2, b = false) :=
  ⟨(C2_no_construction_failure 0 1 (by norm_num)).1 [0, 1000, 2000],
   (C2_no_construction_failure 0 1 (by norm_num)).2 [5, 6, 7]⟩

/-- C3: for both limiters constructed with `capacity ≥ 1` and
`rate ≥ 1`, after every finite sequence of admission checks the level
lies in `[0, capacity]`.  For the token bucket the sequence of clock
readings is monotone and starts at or after the initial baseline 0,
which is what the internally read steady clock delivers. -/
theorem C3_level_bounds (C R : Int) (hC : 1 ≤ C) (hR : 1 ≤ R) :
    (∀ ts : List Int, 0 ≤ ((LeakyBucket.init C R).run ts).1.bucket ∧
      ((LeakyBucket.init C R).run ts).1.bucket ≤ (C : ℚ)) ∧
    (∀ ts : List Int, List.Chain (· ≤ ·) 0 ts →
      0 ≤ ((TokenBucket.init C R).run ts).1.tokens ∧
      ((TokenBucket.init C R).run ts).1.tokens ≤ (C : ℚ)) := by
  have hCq : (1 : ℚ) ≤ (C : ℚ) := by exact_mod_cast hC
  constructor
  · intro ts
    exact LeakyBucket.leaky_run_bounds ts (LeakyBucket.init C R) (by dsimp [LeakyBucket.init]; omega)
      (le_refl 0) (by dsimp [LeakyBucket.init]; linarith)
  · intro ts hch
    exact TokenBucket.token_run_bounds ts (TokenBucket.init C R) (by dsimp [TokenBucket.init]; omega)
      hch (by dsimp [TokenBucket.init]; linarith) (le_refl _)

/-- Witness for `C3_level_bounds` with capacity 2, rate 60 and concrete
check sequences. -/
theorem C3_level_bounds_witness :
    (0 ≤ ((LeakyBucket.init 2 60).run [5, 3, 9]).1.bucket ∧
      ((LeakyBucket.init 2 60).run [5, 3, 9]).1.bucket ≤ (2 : ℚ)) ∧
    (0 ≤ ((TokenBucket.init 2 60).run [1, 1, 4]).1.tokens ∧
      ((TokenBucket.init 2 60).run [1, 1, 4]).1.tokens ≤ (2 : ℚ)) :=
  ⟨(C3_level_bounds 2 60 (by norm_num) (by norm_num)).1 [5, 3, 9],
   (C3_level_bounds 2 60 (by norm_num) (by norm_num)).2 [1, 1, 4]
     (List.Chain.cons (by norm_num)
       (List.Chain.cons (by norm_num) (List.Chain.cons (by norm_num) List.Chain.nil)))⟩

/-- C5: `LeakyBucket.allow` stores the supplied timestamp on every call,
admitted or not; `TokenBucket.isAllowable` stores the clock reading
exactly when the check admits, and leaves the recorded refill time
unchanged on every denial. -/
theorem C5_last_update_discipline :
    ∀ (s : LeakyBucket) (t : Int) (u : TokenBucket) (now : Int),
      (s.allow t).1.last_ts = t ∧
      (u.isAllowable now).1.lastRefillTime
        = (if (u.isAllowable now).2 then now else u.lastRefillTime) := by
  intro s t u now
  refine ⟨(s.allow_fields t).2.2, ?_⟩
  unfold TokenBucket.isAllowable
  dsimp only
  split <;> rfl

/-- C7: from a fresh limiter with capacity `C ≥ 1`, `C` checks at one
fixed timestamp are all admitted and the `(C+1)`-th at that same
timestamp is denied — for the leaky bucket at every timestamp, and for
the token bucket at every non-negative clock reading (its internally
read steady clock never delivers a negative one). -/
theorem C7_capacity_burst_then_denial (C R t : Int) (hC : 1 ≤ C) (hR : 0 ≤ R) :
    ((LeakyBucket.init C R).run (List.replicate (C.toNat + 1) t)).2
      = List.replicate C.toNat true ++ [false] ∧
    (0 ≤ t →
      ((TokenBucket.init C R).run (List.replicate (C.toNat + 1) t)).2
        = List.replicate C.toNat true ++ [false]) := by
  have hCq : (1 : ℚ) ≤ (C : ℚ) := by exact_mod_cast hC
  constructor
  · rw [List.replicate_succ', LeakyBucket.leaky_run_append, LeakyBucket.init_fill C R t hC]
    dsimp only
    rw [show [t] = List.replicate 1 t from rfl,
      LeakyBucket.leaky_run_const_false t 1 ⟨C, R, (C : ℚ), t⟩ rfl (by dsimp only; linarith)
        (by dsimp only; linarith)]
    rfl
  · intro ht
    rw [List.replicate_succ', TokenBucket.token_run_append,
      TokenBucket.consume_all C R t hC hR ht]
    dsimp only
    rw [show [t] = List.replicate 1 t from rfl,
      TokenBucket.token_run_const_false t 1 ⟨C, 0, R, t⟩ rfl (by norm_num)
        (by dsimp only; linarith)]
    rfl

/-- Witness for `C7_capacity_burst_then_denial` with capacity 2, rate 60
and timestamp 5. -/
theorem C7_capacity_burst_then_denial_witness :
    ((LeakyBucket.init 2 60).run (List.replicate ((2 : Int).toNat + 1) 5)).2
      = List.replicate (2 : Int).toNat true ++ [false] ∧
    ((TokenBucket.init 2 60).run (List.replicate ((2 : Int).toNat + 1) 5)).2
      = List.replicate (2 : Int).toNat true ++ [false] :=
  ⟨(C7_capacity_burst_then_denial 2 60 5 (by norm_num) (by norm_num)).1,
   (C7_capacity_burst_then_denial 2 60 5 (by norm_num) (by norm_num)).2 (by norm_num)⟩

/-- C8: a fresh token bucket starts with a full bucket (`tokens`
equals `capacity`), so with capacity at least 1, non-negative rate and a
non-negative clock reading the first admission check succeeds. -/
theorem C8_starts_full_first_admit (C R now : Int) (hC : 1 ≤ C) (hR : 0 ≤ R)
    (hnow : 0 ≤ now) :
    (TokenBucket.init C R).tokens = ((TokenBucket.init C R).capacity : ℚ) ∧
    ((TokenBucket.init C R).isAllowable now).2 = true := by
  refine ⟨rfl, ?_⟩
  rw [TokenBucket.init_isAllowable C R now hC hR hnow]

/-- Witness for `C8_starts_full_first_admit` with capacity 3, rate 60,
clock reading 0. -/
theorem C8_starts_full_first_admit_witness :
    (TokenBucket.init 3 60).tokens = ((TokenBucket.init 3 60).capacity : ℚ) ∧
    ((TokenBucket.init 3 60).isAllowable 0).2 = true :=
  C8_starts_full_first_admit 3 60 0 (by norm_num) (by norm_num) (by norm_num)

/-- C4 (amended): only the leaky bucket clamps a negative elapsed time.
A `LeakyBucket.allow` call at a timestamp at or before the recorded one
behaves exactly like a call with zero elapsed time (same occupancy, same
decision), so a backward-moving timestamp never changes the level beyond
the ordinary admission increment; `TokenBucket.isAllowable` performs no
clamping, and with rate ≥ 60 tokens/minute a backward-moving clock
reading strictly decreases the level. -/
theorem C4_clamp_asymmetry (s : LeakyBucket) (u : TokenBucket) (ts now : Int)
    (hts : ts ≤ s.last_ts) (hnow : now < u.lastRefillTime) (hR : 60 ≤ u.refillRate) :
    ((s.allow ts).1.bucket = (s.allow s.last_ts).1.bucket ∧
      (s.allow ts).2 = (s.allow s.last_ts).2) ∧
    (u.isAllowable now).1.tokens < u.tokens := by
  constructor
  · unfold LeakyBucket.allow
    dsimp only
    by_cases h : s.last_ts = -1
    · simp only [if_pos h]
      split <;> exact ⟨rfl, rfl⟩
    · simp only [if_neg h]
      have hcl : (if ts - s.last_ts < 0 then 0 else ts - s.last_ts : Int) = 0 := by
        split <;> omega
      have hcr : (if s.last_ts - s.last_ts < 0 then 0 else s.last_ts - s.last_ts : Int)
          = 0 := by
        split <;> omega
      rw [hcl, hcr]
      split <;> exact ⟨rfl, rfl⟩
  · have hb1 : 1 ≤ u.refillRate.tdiv 60 := by
      rw [Int.tdiv_eq_ediv (by omega) (by norm_num),
        Int.le_ediv_iff_mul_le (by norm_num : (0 : Int) < 60)]
      omega
    have he : (now - u.lastRefillTime) * u.refillRate.tdiv 60 ≤ -1 := by
      have hmul := mul_le_mul_of_nonpos_left hb1
        (by omega : now - u.lastRefillTime ≤ 0)
      have := mul_one (now - u.lastRefillTime)
      omega
    have heq : (((now - u.lastRefillTime) * u.refillRate.tdiv 60 : Int) : ℚ) ≤ -1 := by
      exact_mod_cast he
    unfold TokenBucket.isAllowable
    dsimp only
    have hmin : rmin (u.capacity : ℚ)
        (u.tokens + (((now - u.lastRefillTime) * u.refillRate.tdiv 60 : Int) : ℚ))
        ≤ u.tokens - 1 := by
      rw [rmin_eq_min]
      exact le_trans (min_le_right _ _) (by linarith)
    by_cases h2 : 1 ≤ rmin (u.capacity : ℚ)
        (u.tokens + (((now - u.lastRefillTime) * u.refillRate.tdiv 60 : Int) : ℚ))
    · rw [if_pos h2]
      dsimp only
      linarith
    · rw [if_neg h2]
      dsimp only
      linarith

/-- Witness for `C4_clamp_asymmetry`: a leaky bucket at occupancy 1 with
`last_ts = 100` checked at the backward timestamp 50, and a token bucket
with 4 tokens, rate 60 and refill baseline 10 checked at the backward
clock reading 5. -/
theorem C4_clamp_asymmetry_witness :
    (((⟨2, 1, 1, 100⟩ : LeakyBucket).allow 50).1.bucket
        = ((⟨2, 1, 1, 100⟩ : LeakyBucket).allow 100).1.bucket ∧
      ((⟨2, 1, 1, 100⟩ : LeakyBucket).allow 50).2
        = ((⟨2, 1, 1, 100⟩ : LeakyBucket).allow 100).2) ∧
    ((⟨5, 4, 60, 10⟩ : TokenBucket).isAllowable 5).1.tokens < (4 : ℚ) :=
  C4_clamp_asymmetry ⟨2, 1, 1, 100⟩ ⟨5, 4, 60, 10⟩ 50 5 (by norm_num) (by norm_num)
    (by norm_num)

/-- C9 (amended): for a token bucket with capacity `C ≥ 1` and rate
`R ≥ 60` tokens per minute (so that truncating integer division leaves a
positive per-second refill), after the `C` initial tokens are consumed
by `C` admitted checks at clock reading `T`, a check earlier than
`60/R` seconds after `T` is denied and leaves the state unchanged, and a
check at or after `60/R` seconds succeeds.  For `1 ≤ R < 60` the code
admits nothing ever again (see the C1 analysis), so the original claim's
range `R ≥ 1` is cut down to `R ≥ 60`. -/
theorem C9_refill_delay (C R T now : Int) (hC : 1 ≤ C) (hR : 60 ≤ R) (hT : 0 ≤ T)
    (hnow : T ≤ now) :
    (((now : ℚ) - (T : ℚ)) < 60 / (R : ℚ) →
      ((TokenBucket.init C R).run (List.replicate C.toNat T)).1.isAllowable now
        = (((TokenBucket.init C R).run (List.replicate C.toNat T)).1, false)) ∧
    (60 / (R : ℚ) ≤ ((now : ℚ) - (T : ℚ)) →
      (((TokenBucket.init C R).run (List.replicate C.toNat T)).1.isAllowable now).2
        = true) := by
  have hs : ((TokenBucket.init C R).run (List.replicate C.toNat T)).1
      = ⟨C, 0, R, T⟩ := by
    rw [TokenBucket.consume_all C R T hC (by omega) hT]
  rw [hs]
  have hRq : (0 : ℚ) < (R : ℚ) := by exact_mod_cast (by omega : (0 : Int) < R)
  have hfrac_pos : 0 < 60 / (R : ℚ) := by positivity
  have hfrac_le1 : 60 / (R : ℚ) ≤ 1 := by
    rw [div_le_one hRq]
    exact_mod_cast hR
  have hCq : (1 : ℚ) ≤ (C : ℚ) := by exact_mod_cast hC
  constructor
  · intro hlt
    have hnT : now = T := by
      have h1 : ((now - T : Int) : ℚ) < 1 := by push_cast; linarith
      have h2 : (now - T : Int) < 1 := by exact_mod_cast h1
      omega
    rw [hnT]
    have hsame := TokenBucket.isAllowable_same_ts ⟨C, 0, R, T⟩
      (by dsimp only; linarith)
    rw [hsame, if_neg (by dsimp only; norm_num)]
  · intro hge
    have h1 : 1 ≤ now - T := by
      rcases lt_or_le T now with h | h
      · omega
      · have hnT : now = T := by omega
        rw [hnT] at hge
        simp only [sub_self] at hge
        linarith
    have htd : 1 ≤ R.tdiv 60 := by
      rw [Int.tdiv_eq_ediv (by omega) (by norm_num),
        Int.le_ediv_iff_mul_le (by norm_num : (0 : Int) < 60)]
      omega
    have hearn : (1 : Int) ≤ (now - T) * R.tdiv 60 := by
      calc (1 : Int) = 1 * 1 := by ring
      _ ≤ (now - T) * R.tdiv 60 := mul_le_mul h1 htd (by norm_num) (by omega)
    have hearnq : (1 : ℚ) ≤ (((now - T) * R.tdiv 60 : Int) : ℚ) := by
      exact_mod_cast hearn
    unfold TokenBucket.isAllowable
    dsimp only
    rw [if_pos ?_]
    rw [rmin_eq_min]
    exact le_min hCq (by linarith)

/-- Witness for `C9_refill_delay` at capacity 1, rate 60, consumption at
clock reading 0: the check at reading 0 (elapsed 0 < 1 = 60/60) is denied
without state change, and the check at reading 1 (elapsed 1 ≥ 60/60)
succeeds. -/
theorem C9_refill_delay_witness :
    ((TokenBucket.init 1 60).run (List.replicate (1 : Int).toNat 0)).1.isAllowable 0
      = (((TokenBucket.init 1 60).run (List.replicate (1 : Int).toNat 0)).1, false) ∧
    (((TokenBucket.init 1 60).run (List.replicate (1 : Int).toNat 0)).1.isAllowable 1).2
      = true :=
  ⟨(C9_refill_delay 1 60 0 0 (by norm_num) (by norm_num) (by norm_num)
      (by norm_num)).1 (by norm_num),
   (C9_refill_delay 1 60 0 1 (by norm_num) (by norm_num) (by norm_num)
      (by norm_num)).2 (by norm_num)⟩

/-- C10 (amended): a `LeakyBucket.allow` call made while `last_ts = -1`
performs no draining and records the supplied timestamp, so the sentinel
state persists only while every call keeps supplying timestamp -1: a run
of `n` calls all at -1 admits the first `capacity` of them (never
draining) and denies the rest.  A later call supplying a timestamp other
than -1 leaves the sentinel state, after which draining resumes — so the
calls are not "treated as first calls forever" (see the
counterexample). -/
theorem C10_sentinel_persists_only_at_minus_one (C R : Int) (hC : 1 ≤ C) (n : ℕ) :
    ((LeakyBucket.init C R).run (List.replicate n (-1))).2
      = List.replicate (min n C.toNat) true ++ List.replicate (n - C.toNat) false := by
  have hCq : (1 : ℚ) ≤ (C : ℚ) := by exact_mod_cast hC
  have hcast : ((C.toNat : ℕ) : ℚ) = (C : ℚ) := by
    exact_mod_cast congrArg (fun k : Int => (k : ℚ)) (Int.toNat_of_nonneg (by omega))
  by_cases hn : n ≤ C.toNat
  · rw [min_eq_left hn, Nat.sub_eq_zero_of_le hn]
    rw [LeakyBucket.leaky_run_const_true (-1) n (LeakyBucket.init C R) rfl (le_refl 0) ?_]
    · simp
    · dsimp only [LeakyBucket.init]
      have h1 : ((n : ℕ) : ℚ) ≤ ((C.toNat : ℕ) : ℚ) := by exact_mod_cast hn
      rw [hcast] at h1
      linarith
  · push_neg at hn
    have hsplit : n = C.toNat + (n - C.toNat) := by omega
    rw [min_eq_right (by omega)]
    conv_lhs => rw [hsplit]
    rw [List.replicate_add, LeakyBucket.leaky_run_append, LeakyBucket.init_fill C R (-1) hC]
    dsimp only
    rw [LeakyBucket.leaky_run_const_false (-1) (n - C.toNat) ⟨C, R, (C : ℚ), -1⟩ rfl
      (by dsimp only; linarith) (by dsimp only; linarith)]

/-- Witness for `C10_sentinel_persists_only_at_minus_one` with capacity
2, rate 1 and four calls at timestamp -1. -/
theorem C10_sentinel_persists_only_at_minus_one_witness :
    ((LeakyBucket.init 2 1).run (List.replicate 4 (-1))).2
      = List.replicate (min 4 (2 : Int).toNat) true
        ++ List.replicate (4 - (2 : Int).toNat) false :=
  C10_sentinel_persists_only_at_minus_one 2 1 (by norm_num) 4
